import Mathlib

/-!
Verification of the raster painting engine of the rainbow-paint-by-numbers
repository.

The definitions below are a shallow embedding of the code paths the claims
are about: the paint buffer, the region map, the brush and flood-fill
operations and the restore effect of src/components/GameCanvas.tsx, the
progress threshold of the game store, and saveFullState of
src/store/level-progress-store.ts.  Screen coordinates are cut at the
image-coordinate boundary: the floating-point pan/zoom transform of the
source produces floored integer image coordinates, and the embedded
operations take those integers directly, quantifying over all of them.
-/

/-- One parsed RGB triple as produced by hexToRgb in GameCanvas.tsx. -/
structure Rgb where
  r : Nat
  g : Nat
  b : Nat
  deriving DecidableEq, Repr

/-- The four bytes of one pixel of the RGBA paint buffer. -/
structure Rgba where
  r : Nat
  g : Nat
  b : Nat
  a : Nat
  deriving DecidableEq, Repr

/-- A palette entry in the source is a hex colour string that is parsed by
the regular expression in hexToRgb.  A string either matches the regex,
yielding three parsed channel bytes, or fails to match; this type records
exactly that outcome of the deterministic parse. -/
inductive HexColor where
  | rgb (r g b : Nat) : HexColor
  | malformed : HexColor
  deriving DecidableEq, Repr

/-- Result of the hex regex on a palette entry: the channels on a match,
none otherwise. -/
def hexParse : HexColor → Option Rgb
  | HexColor.rgb r g b => some ⟨r, g, b⟩
  | HexColor.malformed => none

/-- hexToRgb of GameCanvas.tsx: a failed regex match falls back to black. -/
def hexToRgb (h : HexColor) : Rgb :=
  (hexParse h).getD ⟨0, 0, 0⟩

/-- The immutable per-level data the painting engine reads: the image
dimensions, the region map and the palette.  mapPixel k is the byte the
source reads as mapPixelData at offset k * 4 (the red channel of the
region-map bitmap). -/
structure Canvas where
  imgWidth : Nat
  imgHeight : Nat
  mapPixel : List Nat
  palette : List HexColor
  deriving DecidableEq, Repr

/-- Region id at a pixel key.  Every read of mapPixelData in the painting
paths is guarded by a bounds check, so only in-range keys are ever read
there; the default 255 makes an out-of-range read behave as background,
which is also the net effect of the undefined read in the restore path of
the source (the palette lookup of undefined fails the hex regex and the
pixel is skipped). -/
def regionAt (c : Canvas) (k : Nat) : Nat :=
  c.mapPixel.getD k 255

/-- Palette lookup; an out-of-range index is undefined in the source, which
the hex regex then rejects, so malformed is the faithful default. -/
def paletteGet (c : Canvas) (i : Nat) : HexColor :=
  c.palette.getD i HexColor.malformed

/-- Unpainted tint written by the initialisation and reset loops of
GameCanvas.tsx (UNPAINTED_COLOR with opaque alpha). -/
def UNPAINTED : Rgba := ⟨230, 230, 240, 255⟩

/-- The mutable session state the claims are about: the RGBA paint buffer
(one Rgba per pixel, index y * imgWidth + x) and the painted-pixel set. -/
structure PaintState where
  buffer : List Rgba
  painted : Finset Nat
  deriving DecidableEq

/-- Write of the four bytes of pixel k: the rgb channels of the colour and
alpha 255.  List.set, like a typed-array write, changes nothing when k is
out of range. -/
def writePixel (buf : List Rgba) (k : Nat) (color : Rgb) : List Rgba :=
  buf.set k ⟨color.r, color.g, color.b, 255⟩

namespace BRUSH_SIZES

/-- Brush radius in pixels of the large brush (game store). -/
def large : Nat := 28

/-- Brush radius in pixels of the medium brush (game store). -/
def medium : Nat := 14

end BRUSH_SIZES

/-- Offsets scanned by the double loop of paintBrush: dy runs in the outer
loop from -radius to radius, dx in the inner loop.  Pairs are (dx, dy). -/
def brushOffsets (radius : Nat) : List (Int × Int) :=
  (List.range (2 * radius + 1)).flatMap fun i =>
    (List.range (2 * radius + 1)).map fun j =>
      ((j : Int) - radius, (i : Int) - radius)

/-- Body of the paintBrush double loop for one offset d = (dx, dy): the
circle test, the bounds test, the background and palette-range test, the
mode dispatch, the redundant-write test, and the write plus painted-set
insertion.  The accumulator carries the state and the painted flag. -/
def paintBrushStep (c : Canvas) (sel : Nat) (imgX imgY : Int) (radius : Nat)
    (isMagicBrush : Bool) (acc : PaintState × Bool) (d : Int × Int) :
    PaintState × Bool :=
  if d.1 * d.1 + d.2 * d.2 > (radius : Int) * radius then acc
  else
    let px := imgX + d.1
    let py := imgY + d.2
    if px < 0 ∨ (c.imgWidth : Int) ≤ px ∨ py < 0 ∨ (c.imgHeight : Int) ≤ py then acc
    else
      let pixelKey := (py * c.imgWidth + px).toNat
      let mapColorIdx := regionAt c pixelKey
      if mapColorIdx = 255 ∨ mapColorIdx = 254 ∨ c.palette.length ≤ mapColorIdx then acc
      else if isMagicBrush ∧ mapColorIdx ≠ sel then acc
      else
        let color := if isMagicBrush then hexToRgb (paletteGet c sel)
                     else hexToRgb (paletteGet c mapColorIdx)
        let cur := acc.1.buffer.getD pixelKey ⟨0, 0, 0, 0⟩
        if cur.r = color.r ∧ cur.g = color.g ∧ cur.b = color.b then acc
        else (⟨writePixel acc.1.buffer pixelKey color, insert pixelKey acc.1.painted⟩, true)

/-- paintBrush of GameCanvas.tsx at the image-coordinate cut: imgX and imgY
are the floored integer image coordinates produced by the pan/zoom
transform, radius is BRUSH_SIZES of the current brush size, sel the
selected colour index read from the game store.  Returns the new state and
the painted flag.  The stroke-marker and raster-rebuild side effects of the
source do not touch the buffer or the painted set and are outside this
model. -/
def paintBrush (c : Canvas) (sel : Nat) (imgX imgY : Int) (radius : Nat)
    (isMagicBrush : Bool) (st : PaintState) : PaintState × Bool :=
  (brushOffsets radius).foldl (paintBrushStep c sel imgX imgY radius isMagicBrush) (st, false)

/-- Neighbour pushes of the flood fill in stack order: the source pushes the
eight neighbours of (x, y) onto the array, so popping visits them starting
from the last push (x - 1, y - 1); the head of the list is the top of the
stack. -/
def pushNeighbors (x y : Int) (rest : List (Int × Int)) : List (Int × Int) :=
  (x - 1, y - 1) :: (x + 1, y - 1) :: (x - 1, y + 1) :: (x + 1, y + 1) ::
    (x, y - 1) :: (x, y + 1) :: (x - 1, y) :: (x + 1, y) :: rest

/-- Result of the flood-fill loop: the session state, the visited key set,
the iteration counter and the leftover stack at exit. -/
structure LoopResult where
  state : PaintState
  visited : Finset Int
  iterations : Nat
  stack : List (Int × Int)
  deriving DecidableEq

/-- The while loop of floodFill.  The source stack holds coordinates pushed
and popped in pairs, so the pair list here is that array with its top at
the head.  The key is computed before the bounds test, exactly as in the
source; iterations counts only included pixels.  fuel is an explicit
structural bound on the number of loop steps; the run wrapper passes
1 + 9 * maxIter, which is never exhausted (each step pops one pair and only
an included pixel pushes eight, with at most maxIter inclusions), so the
loop always ends because the stack is empty or the iteration cap is
reached, exactly like the source while condition. -/
def floodFillLoop (c : Canvas) (target : Nat) (fillColor : Rgb) (maxIter : Nat) :
    Nat → List (Int × Int) → Finset Int → Nat → PaintState → LoopResult
  | 0, stack, visited, it, st => ⟨st, visited, it, stack⟩
  | _ + 1, [], visited, it, st => ⟨st, visited, it, []⟩
  | fuel + 1, (x, y) :: rest, visited, it, st =>
    if it < maxIter then
      let key : Int := y * c.imgWidth + x
      if key ∈ visited then
        floodFillLoop c target fillColor maxIter fuel rest visited it st
      else if x < 0 ∨ (c.imgWidth : Int) ≤ x ∨ y < 0 ∨ (c.imgHeight : Int) ≤ y then
        floodFillLoop c target fillColor maxIter fuel rest visited it st
      else if regionAt c key.toNat ≠ target then
        floodFillLoop c target fillColor maxIter fuel rest visited it st
      else
        floodFillLoop c target fillColor maxIter fuel (pushNeighbors x y rest)
          (insert key visited) (it + 1)
          ⟨writePixel st.buffer key.toNat fillColor, insert key.toNat st.painted⟩
    else ⟨st, visited, it, (x, y) :: rest⟩

/-- floodFill of GameCanvas.tsx at the image-coordinate cut, with the loop
fuel exposed: the seed bounds test, the background-sentinel test on the
target region id, the selected-colour test, and the loop with the
per-invocation cap maxIterationsPerFrame = imgWidth * imgHeight of the
refined variant. -/
def floodFillRunFuel (c : Canvas) (sel : Nat) (startX startY : Int)
    (st : PaintState) (fuel : Nat) : LoopResult :=
  if startX < 0 ∨ (c.imgWidth : Int) ≤ startX ∨ startY < 0 ∨ (c.imgHeight : Int) ≤ startY then
    ⟨st, ∅, 0, []⟩
  else
    let targetColorIndex := regionAt c (startY * c.imgWidth + startX).toNat
    if targetColorIndex = 255 ∨ targetColorIndex = 254 then ⟨st, ∅, 0, []⟩
    else if targetColorIndex ≠ sel then ⟨st, ∅, 0, []⟩
    else
      floodFillLoop c targetColorIndex (hexToRgb (paletteGet c sel))
        (c.imgWidth * c.imgHeight) fuel [(startX, startY)] ∅ 0 st

/-- floodFill of GameCanvas.tsx with the canonical fuel that the loop never
exhausts. -/
def floodFillRun (c : Canvas) (sel : Nat) (startX startY : Int)
    (st : PaintState) : LoopResult :=
  floodFillRunFuel c sel startX startY st (1 + 9 * (c.imgWidth * c.imgHeight))

/-- The state after a flood fill: what floodFill leaves in the buffer and
the painted set. -/
def floodFill (c : Canvas) (sel : Nat) (startX startY : Int)
    (st : PaintState) : PaintState :=
  (floodFillRun c sel startX startY st).state

/-- floodFill of the older canvas variant (src/unnamed/part_008): the
background sentinel is only 255 there and the iteration cap is the fixed
maxIterationsPerFrame = 50000. -/
def floodFillRunLegacy (c : Canvas) (sel : Nat) (startX startY : Int)
    (st : PaintState) : LoopResult :=
  if startX < 0 ∨ (c.imgWidth : Int) ≤ startX ∨ startY < 0 ∨ (c.imgHeight : Int) ≤ startY then
    ⟨st, ∅, 0, []⟩
  else
    let targetColorIndex := regionAt c (startY * c.imgWidth + startX).toNat
    if targetColorIndex = 255 then ⟨st, ∅, 0, []⟩
    else if targetColorIndex ≠ sel then ⟨st, ∅, 0, []⟩
    else
      floodFillLoop c targetColorIndex (hexToRgb (paletteGet c sel))
        50000 (1 + 9 * 50000) [(startX, startY)] ∅ 0 st

/-- One step of the restore loop of the GameCanvas.tsx restore effect, for
a single persisted pixel index: skip when the region id at that index is a
background sentinel or not a valid palette index, skip when the palette
entry fails the hex regex, otherwise write the palette colour and add the
index to the painted set.  A persisted index beyond the map reads undefined
in the source and is likewise skipped (see regionAt). -/
def restorePixel (c : Canvas) (st : PaintState) (pixelKey : Nat) : PaintState :=
  let colorIdx := regionAt c pixelKey
  if colorIdx = 255 ∨ colorIdx = 254 ∨ c.palette.length ≤ colorIdx then st
  else
    match hexParse (paletteGet c colorIdx) with
    | none => st
    | some col =>
      ⟨st.buffer.set pixelKey ⟨col.r, col.g, col.b, 255⟩, insert pixelKey st.painted⟩

/-- The restore effect of GameCanvas.tsx on the buffer and the painted set:
with no saved pixels the effect returns without touching anything (its
guard covers both a missing and an empty saved list); otherwise it clears
the painted set, resets every pixel of the buffer to the unpainted tint and
replays each saved index through restorePixel. -/
def restoreEffect (c : Canvas) (initialPaintedPixels : List Nat)
    (st : PaintState) : PaintState :=
  if initialPaintedPixels = [] then st
  else initialPaintedPixels.foldl (restorePixel c)
    ⟨st.buffer.map fun _ => UNPAINTED, ∅⟩

/-- The slice of the game store that setProgress reads and writes. -/
structure GameStoreState where
  selectedColorIndex : Nat
  progress : ℚ
  isComplete : Bool
  deriving DecidableEq

/-- setProgress of the game store: stores the progress value and derives
the completion flag from the fixed threshold 98. -/
def setProgress (p : ℚ) (s : GameStoreState) : GameStoreState :=
  { s with progress := p, isComplete := decide ((98 : ℚ) ≤ p) }

/-- Progress percentage as computed by updateProgress in GameCanvas.tsx,
as an exact rational.  For the concrete values of the completion-threshold
claim the floating-point computation of the source rounds to exactly the
same numbers. -/
def progressOf (paintedCount totalPaintable : Nat) : ℚ :=
  (paintedCount : ℚ) / (totalPaintable : ℚ) * 100

/-- Persisted per-level record of level-progress-store.ts; the optional
paintedPixels field is the field that saveFullState sets to undefined for
completed levels. -/
structure LevelProgress where
  progress : ℚ
  isComplete : Bool
  paintedPixels : Option (List Nat)
  lastUpdated : Nat
  deriving DecidableEq

/-- saveFullState of level-progress-store.ts: overwrites the record of
levelId in the levels map; the pixels list is Array.from of the painted
set and now is Date.now(). -/
def saveFullState (levels : String → Option LevelProgress) (levelId : String)
    (progress : ℚ) (isComplete : Bool) (paintedPixels : List Nat) (now : Nat) :
    String → Option LevelProgress :=
  Function.update levels levelId
    (some { progress := progress, isComplete := isComplete,
            paintedPixels := if isComplete then none else some paintedPixels,
            lastUpdated := now })

/-- getPaintedPixels of the GameCanvas imperative handle: the live painted
set when the session has painted anything, otherwise the saved list (when
it was supplied and is non-empty) as a set, otherwise the empty set.  none
models an absent initialPaintedPixels prop. -/
def getPaintedPixels (live : Finset Nat)
    (initialPaintedPixels : Option (List Nat)) : Finset Nat :=
  if 0 < live.card then live
  else
    match initialPaintedPixels with
    | some l => if 0 < l.length then l.toFinset else ∅
    | none => ∅

/-- The 5 by 5 block with top-left corner (blockX, blockY) of the flood-fill
correctness claim, as a predicate on image coordinates. -/
def inBlock (blockX blockY x y : Int) : Prop :=
  blockX ≤ x ∧ x < blockX + 5 ∧ blockY ≤ y ∧ y < blockY + 5

instance (blockX blockY x y : Int) : Decidable (inBlock blockX blockY x y) := by
  unfold inBlock; infer_instance

/-- The one-pixel ring of coordinates around that block. -/
def inRing (blockX blockY x y : Int) : Prop :=
  blockX - 1 ≤ x ∧ x ≤ blockX + 5 ∧ blockY - 1 ≤ y ∧ y ≤ blockY + 5 ∧
    ¬ inBlock blockX blockY x y

instance (blockX blockY x y : Int) : Decidable (inRing blockX blockY x y) := by
  unfold inRing; infer_instance

/-- 8-connectivity of two distinct pixels. -/
def adj (p q : Int × Int) : Prop :=
  (p.1 - q.1).natAbs ≤ 1 ∧ (p.2 - q.2).natAbs ≤ 1 ∧ p ≠ q

instance (p q : Int × Int) : Decidable (adj p q) := by
  unfold adj; infer_instance

/-- Pixel key of a coordinate pair in a canvas of width w. -/
def keyOf (w : Nat) (p : Int × Int) : Int :=
  p.2 * w + p.1

/-- The 25 pixel keys of the 5 by 5 block. -/
def blockKeys (c : Canvas) (blockX blockY : Int) : Finset Nat :=
  (Finset.range 5 ×ˢ Finset.range 5).image fun ij =>
    ((blockY + (ij.2 : Int)) * c.imgWidth + (blockX + (ij.1 : Int))).toNat

/-- One step of a coordinate toward a target coordinate, used to walk any
block pixel back to the seed inside the block. -/
def stepToward (s t : Int) : Int :=
  if s < t then t - 1 else if t < s then t + 1 else t

/-- The 25 pixel keys of the 5 by 5 block as integers, before truncation to
array indices. -/
def blockKeysI (c : Canvas) (blockX blockY : Int) : Finset Int :=
  (Finset.range 5 ×ˢ Finset.range 5).image fun ij =>
    (blockY + (ij.2 : Int)) * c.imgWidth + (blockX + (ij.1 : Int))

/-- Concrete 7 by 7 fixture level: a 5 by 5 block of region id 0 with
top-left corner (1, 1), surrounded by a one-pixel ring of background 255. -/
def wMap : List Nat :=
  (List.range 49).map fun k =>
    let x := k % 7
    let y := k / 7
    if 1 ≤ x ∧ x ≤ 5 ∧ 1 ≤ y ∧ y ≤ 5 then 0 else 255

/-- Fixture canvas over wMap with a one-colour palette. -/
def wCanvas : Canvas :=
  { imgWidth := 7, imgHeight := 7, mapPixel := wMap,
    palette := [HexColor.rgb 255 0 0] }

/-- Fixture session state: freshly initialised buffer, nothing painted. -/
def wState : PaintState :=
  { buffer := List.replicate 49 UNPAINTED, painted := ∅ }

/-- C8: setProgress marks the level complete exactly when progress is at
least 98: with 100 paintable pixels, 98 painted give progress 98 and
isComplete true, 97 painted give progress 97 and isComplete false. -/
theorem c8_completion_threshold (s : GameStoreState) :
    (setProgress (progressOf 98 100) s).isComplete = true ∧
    (setProgress (progressOf 97 100) s).isComplete = false ∧
    (setProgress (progressOf 98 100) s).progress = 98 ∧
    (setProgress (progressOf 97 100) s).progress = 97 := by
  refine ⟨?_, ?_, ?_, ?_⟩ <;> norm_num [setProgress, progressOf]

/-- C9: a full save of a complete level stores progress and the completion
flag but omits the painted-pixel data, while a full save of an incomplete
level stores the whole painted-pixel list. -/
theorem c9_save_full_state_omits_pixels_when_complete
    (levels : String → Option LevelProgress) (levelId : String)
    (progress : ℚ) (paintedPixels : List Nat) (now : Nat) :
    saveFullState levels levelId progress true paintedPixels now levelId =
      some { progress := progress, isComplete := true,
             paintedPixels := none, lastUpdated := now } ∧
    saveFullState levels levelId progress false paintedPixels now levelId =
      some { progress := progress, isComplete := false,
             paintedPixels := some paintedPixels, lastUpdated := now } := by
  constructor <;> simp [saveFullState]

/-- C10: getPaintedPixels returns the saved list as a set when nothing was
painted this session and a non-empty saved list was supplied; it returns
the live set only when the live set is non-empty; otherwise it returns the
empty set. -/
theorem c10_getPaintedPixels_prefers_saved (live : Finset Nat)
    (init : Option (List Nat)) :
    (∀ l : List Nat, live = ∅ → init = some l → l ≠ [] →
      getPaintedPixels live init = l.toFinset) ∧
    (live ≠ ∅ → getPaintedPixels live init = live) ∧
    (live = ∅ → init = none ∨ init = some [] → getPaintedPixels live init = ∅) := by
  refine ⟨?_, ?_, ?_⟩
  · rintro l rfl rfl hl
    have h0 : ¬ 0 < (∅ : Finset Nat).card := by simp
    have hlen : 0 < l.length := List.length_pos.mpr hl
    simp [getPaintedPixels, h0, hlen]
  · intro hlive
    have : 0 < live.card := Finset.card_pos.mpr (Finset.nonempty_iff_ne_empty.mpr hlive)
    simp [getPaintedPixels, this]
  · rintro rfl (rfl | rfl) <;> simp [getPaintedPixels]

/-- C10 witness: on concrete inputs, the saved list is returned when the
live set is empty, the live set when it is non-empty, and the empty set
when neither is available. -/
theorem c10_witness :
    getPaintedPixels ∅ (some [3, 5]) = ({3, 5} : Finset Nat) ∧
    getPaintedPixels {7} (some [3, 5]) = ({7} : Finset Nat) ∧
    getPaintedPixels ∅ none = ∅ := by
  refine ⟨?_, ?_, ?_⟩
  · have h := (c10_getPaintedPixels_prefers_saved ∅ (some [3, 5])).1 [3, 5] rfl rfl
      (by decide)
    simpa using h
  · exact (c10_getPaintedPixels_prefers_saved {7} (some [3, 5])).2.1 (by decide)
  · exact (c10_getPaintedPixels_prefers_saved ∅ none).2.2 rfl (Or.inl rfl)

/-- C3: floodFill is a complete no-op, leaving the paint buffer and the
painted set unchanged, whenever the region id at the seed pixel is a
background sentinel or differs from the selected colour index. -/
theorem c3_floodFill_noop (c : Canvas) (sel : Nat) (startX startY : Int)
    (st : PaintState)
    (hx0 : 0 ≤ startX) (hx1 : startX < (c.imgWidth : Int))
    (hy0 : 0 ≤ startY) (hy1 : startY < (c.imgHeight : Int))
    (h : regionAt c (startY * c.imgWidth + startX).toNat = 255 ∨
         regionAt c (startY * c.imgWidth + startX).toNat = 254 ∨
         regionAt c (startY * c.imgWidth + startX).toNat ≠ sel) :
    (floodFill c sel startX startY st).buffer = st.buffer ∧
    (floodFill c sel startX startY st).painted = st.painted := by
  simp only [floodFill, floodFillRun, floodFillRunFuel]
  split_ifs with h1 h2 h3
  · exact ⟨rfl, rfl⟩
  · exact ⟨rfl, rfl⟩
  · exact ⟨rfl, rfl⟩
  · exfalso
    rcases h with h | h | h
    · exact h2 (Or.inl h)
    · exact h2 (Or.inr h)
    · exact h3 h

/-- C3 witness: on the fixture level, flood fill at a background seed and
flood fill with a mismatched selected colour both change nothing. -/
theorem c3_witness :
    (floodFill wCanvas 0 0 0 wState).buffer = wState.buffer ∧
    (floodFill wCanvas 0 0 0 wState).painted = wState.painted ∧
    (floodFill wCanvas 3 2 2 wState).buffer = wState.buffer ∧
    (floodFill wCanvas 3 2 2 wState).painted = wState.painted := by
  have hbg := c3_floodFill_noop wCanvas 0 0 0 wState (by decide) (by decide)
    (by decide) (by decide) (by decide)
  have hsel := c3_floodFill_noop wCanvas 3 2 2 wState (by decide) (by decide)
    (by decide) (by decide) (by decide)
  exact ⟨hbg.1, hbg.2, hsel.1, hsel.2⟩

/-- restorePixel never changes the buffer length. -/
theorem restorePixel_length (c : Canvas) (st : PaintState) (k : Nat) :
    (restorePixel c st k).buffer.length = st.buffer.length := by
  simp only [restorePixel]
  split_ifs
  · rfl
  · cases hexParse (paletteGet c (regionAt c k)) <;> simp

/-- The restore replay fold never changes the buffer length. -/
theorem restore_foldl_length (c : Canvas) :
    ∀ (l : List Nat) (init : PaintState),
      ((l.foldl (restorePixel c) init).buffer.length = init.buffer.length)
  | [], _ => rfl
  | k :: l, init => by
    rw [List.foldl_cons, restore_foldl_length c l (restorePixel c init k),
      restorePixel_length]

/-- C4: the restore operation is idempotent: running it twice with the same
persisted index list produces the same paint buffer and the same
painted-pixel set as running it once. -/
theorem c4_restore_idempotent (c : Canvas) (initialPaintedPixels : List Nat)
    (st : PaintState) :
    restoreEffect c initialPaintedPixels (restoreEffect c initialPaintedPixels st) =
      restoreEffect c initialPaintedPixels st := by
  by_cases hl : initialPaintedPixels = []
  · subst hl; simp [restoreEffect]
  · have hlen : (restoreEffect c initialPaintedPixels st).buffer.length =
        st.buffer.length := by
      simp only [restoreEffect, if_neg hl]
      rw [restore_foldl_length]
      simp
    have h1 : ((restoreEffect c initialPaintedPixels st).buffer.map fun _ => UNPAINTED) =
        st.buffer.map fun _ => UNPAINTED := by
      rw [List.map_const', List.map_const', hlen]
    conv_lhs => rw [restoreEffect, if_neg hl, h1]
    rw [restoreEffect, if_neg hl]

/-- A persisted index whose region id is a background sentinel or out of
palette range is skipped by restorePixel. -/
theorem restorePixel_skip (c : Canvas) (st : PaintState) (b : Nat)
    (hb : regionAt c b = 255 ∨ regionAt c b = 254 ∨
      c.palette.length ≤ regionAt c b) :
    restorePixel c st b = st := by
  simp only [restorePixel]
  rw [if_pos hb]

/-- An index that restorePixel skips never enters the painted set during
the replay fold. -/
theorem restore_foldl_not_painted (c : Canvas) (b : Nat)
    (hb : regionAt c b = 255 ∨ regionAt c b = 254 ∨
      c.palette.length ≤ regionAt c b) :
    ∀ (l : List Nat) (init : PaintState), b ∉ init.painted →
      b ∉ (l.foldl (restorePixel c) init).painted
  | [], _, h => h
  | k :: l, init, h => by
    rw [List.foldl_cons]
    refine restore_foldl_not_painted c b hb l _ ?_
    by_cases hkb : k = b
    · subst hkb; rw [restorePixel_skip c init k hb]; exact h
    · simp only [restorePixel]
      split_ifs
      · exact h
      · cases hexParse (paletteGet c (regionAt c k)) with
        | none => exact h
        | some col =>
          simp only [Finset.mem_insert]
          rintro (rfl | hmem)
          · exact hkb rfl
          · exact h hmem

/-- The buffer entry of an index that restorePixel skips is never written
during the replay fold. -/
theorem restore_foldl_buffer_at (c : Canvas) (b : Nat)
    (hb : regionAt c b = 255 ∨ regionAt c b = 254 ∨
      c.palette.length ≤ regionAt c b) :
    ∀ (l : List Nat) (init : PaintState),
      (l.foldl (restorePixel c) init).buffer[b]? = init.buffer[b]?
  | [], _ => rfl
  | k :: l, init => by
    rw [List.foldl_cons, restore_foldl_buffer_at c b hb l (restorePixel c init k)]
    by_cases hkb : k = b
    · subst hkb; rw [restorePixel_skip c init k hb]
    · simp only [restorePixel]
      split_ifs
      · rfl
      · cases hexParse (paletteGet c (regionAt c k)) with
        | none => rfl
        | some col => exact List.getElem?_set_ne hkb

/-- C5: during restore, a persisted pixel index whose region id is a
background sentinel or out of palette range is skipped: its buffer pixel
keeps the unpainted tint and it is never added to the painted set, and the
replay of the remaining indices proceeds exactly as if the invalid index
were absent, from any intermediate state. -/
theorem c5_restore_skips_invalid (c : Canvas) (xs ys : List Nat) (b : Nat)
    (st : PaintState)
    (hb : regionAt c b = 255 ∨ regionAt c b = 254 ∨
      c.palette.length ≤ regionAt c b)
    (hblen : b < st.buffer.length) :
    (∀ init : PaintState, (xs ++ b :: ys).foldl (restorePixel c) init =
      (xs ++ ys).foldl (restorePixel c) init) ∧
    b ∉ (restoreEffect c (xs ++ b :: ys) st).painted ∧
    (restoreEffect c (xs ++ b :: ys) st).buffer[b]? = some UNPAINTED := by
  have hne : xs ++ b :: ys ≠ [] := by simp
  refine ⟨?_, ?_, ?_⟩
  · intro init
    rw [List.foldl_append, List.foldl_append, List.foldl_cons,
      restorePixel_skip c _ b hb]
  · rw [restoreEffect, if_neg hne]
    exact restore_foldl_not_painted c b hb _ _ (by simp)
  · rw [restoreEffect, if_neg hne, restore_foldl_buffer_at c b hb]
    simp only [List.getElem?_map]
    rw [List.getElem?_eq_getElem hblen]
    rfl

/-- C5 witness: on the fixture level, the restore of indices 8, 0, 100, 9
skips the background index 0 (and would skip the out-of-range index 100):
0 is not painted, its pixel keeps the tint, and the replay equals the
replay without it. -/
theorem c5_witness :
    (∀ init : PaintState, ([8] ++ 0 :: [100, 9]).foldl (restorePixel wCanvas) init =
      ([8] ++ [100, 9]).foldl (restorePixel wCanvas) init) ∧
    0 ∉ (restoreEffect wCanvas ([8] ++ 0 :: [100, 9]) wState).painted ∧
    (restoreEffect wCanvas ([8] ++ 0 :: [100, 9]) wState).buffer[0]? = some UNPAINTED := by
  exact c5_restore_skips_invalid wCanvas [8] [100, 9] 0 wState (by decide) (by decide)

/-- One brush-loop step either leaves the accumulator unchanged or writes
one pixel whose region id passed the background and palette-range test and
whose coordinates passed the bounds test. -/
theorem paintBrushStep_cases (c : Canvas) (sel : Nat) (imgX imgY : Int)
    (radius : Nat) (isMagicBrush : Bool) (acc : PaintState × Bool) (d : Int × Int) :
    paintBrushStep c sel imgX imgY radius isMagicBrush acc d = acc ∨
    ∃ color,
      regionAt c ((imgY + d.2) * c.imgWidth + (imgX + d.1)).toNat ≠ 255 ∧
      regionAt c ((imgY + d.2) * c.imgWidth + (imgX + d.1)).toNat ≠ 254 ∧
      regionAt c ((imgY + d.2) * c.imgWidth + (imgX + d.1)).toNat < c.palette.length ∧
      0 ≤ imgX + d.1 ∧ imgX + d.1 < (c.imgWidth : Int) ∧
      0 ≤ imgY + d.2 ∧ imgY + d.2 < (c.imgHeight : Int) ∧
      paintBrushStep c sel imgX imgY radius isMagicBrush acc d =
        (⟨writePixel acc.1.buffer ((imgY + d.2) * c.imgWidth + (imgX + d.1)).toNat color,
          insert ((imgY + d.2) * c.imgWidth + (imgX + d.1)).toNat acc.1.painted⟩, true) := by
  simp only [paintBrushStep]
  split_ifs with h1 h2 h3 h4 h5 h6
  all_goals try exact Or.inl rfl
  all_goals push_neg at h2 h3
  all_goals exact Or.inr ⟨_, h3.1, h3.2.1, h3.2.2, h2.1, h2.2.1, h2.2.2.1, h2.2.2.2, rfl⟩

/-- One brush-loop step neither adds a background pixel p to the painted
set nor changes its buffer entry: every write of the step is guarded by the
background test. -/
theorem paintBrushStep_sentinel (c : Canvas) (sel : Nat) (imgX imgY : Int)
    (radius : Nat) (isMagicBrush : Bool) (p : Nat)
    (hp : regionAt c p = 255 ∨ regionAt c p = 254)
    (acc : PaintState × Bool) (d : Int × Int) :
    ((p ∈ (paintBrushStep c sel imgX imgY radius isMagicBrush acc d).1.painted ↔
      p ∈ acc.1.painted) ∧
    (paintBrushStep c sel imgX imgY radius isMagicBrush acc d).1.buffer[p]? =
      acc.1.buffer[p]?) := by
  rcases paintBrushStep_cases c sel imgX imgY radius isMagicBrush acc d with
    heq | ⟨color, hr255, hr254, _, _, _, _, _, heq⟩
  · rw [heq]; exact ⟨Iff.rfl, rfl⟩
  · have hne : ((imgY + d.2) * c.imgWidth + (imgX + d.1)).toNat ≠ p := by
      intro he
      rw [he] at hr255 hr254
      rcases hp with hp | hp
      · exact hr255 hp
      · exact hr254 hp
    rw [heq]
    refine ⟨?_, ?_⟩
    · simp [Finset.mem_insert, Ne.symm hne]
    · simp only [writePixel]
      exact List.getElem?_set_ne hne

/-- The whole brush fold preserves the painted-set membership and the
buffer entry of a background pixel. -/
theorem brush_fold_sentinel (c : Canvas) (sel : Nat) (imgX imgY : Int)
    (radius : Nat) (isMagicBrush : Bool) (p : Nat)
    (hp : regionAt c p = 255 ∨ regionAt c p = 254) :
    ∀ (ds : List (Int × Int)) (acc : PaintState × Bool),
      ((p ∈ (ds.foldl (paintBrushStep c sel imgX imgY radius isMagicBrush) acc).1.painted ↔
        p ∈ acc.1.painted) ∧
      (ds.foldl (paintBrushStep c sel imgX imgY radius isMagicBrush) acc).1.buffer[p]? =
        acc.1.buffer[p]?)
  | [], _ => ⟨Iff.rfl, rfl⟩
  | d :: ds, acc => by
    rw [List.foldl_cons]
    obtain ⟨ih1, ih2⟩ := brush_fold_sentinel c sel imgX imgY radius isMagicBrush p hp ds
      (paintBrushStep c sel imgX imgY radius isMagicBrush acc d)
    obtain ⟨s1, s2⟩ := paintBrushStep_sentinel c sel imgX imgY radius isMagicBrush p hp acc d
    exact ⟨ih1.trans s1, ih2.trans s2⟩

/-- The flood-fill loop preserves the painted-set membership and the buffer
entry of every pixel whose region id is not the fill target: each write of
the loop is at a key whose region id equals the target. -/
theorem flood_loop_preserves (c : Canvas) (target : Nat) (fill : Rgb)
    (maxIter : Nat) (p : Nat) (hp : regionAt c p ≠ target) :
    ∀ (fuel : Nat) (stack : List (Int × Int)) (visited : Finset Int) (it : Nat)
      (st : PaintState),
      ((p ∈ (floodFillLoop c target fill maxIter fuel stack visited it st).state.painted ↔
        p ∈ st.painted) ∧
      (floodFillLoop c target fill maxIter fuel stack visited it st).state.buffer[p]? =
        st.buffer[p]?)
  | 0, _, _, _, _ => ⟨Iff.rfl, rfl⟩
  | _ + 1, [], _, _, _ => ⟨Iff.rfl, rfl⟩
  | fuel + 1, (x, y) :: rest, visited, it, st => by
    simp only [floodFillLoop]
    split_ifs with h1 h2 h3 h4
    · exact flood_loop_preserves c target fill maxIter p hp fuel rest visited it st
    · exact flood_loop_preserves c target fill maxIter p hp fuel rest visited it st
    · exact flood_loop_preserves c target fill maxIter p hp fuel rest visited it st
    · have hkey : regionAt c (y * (c.imgWidth : Int) + x).toNat = target := by
        by_contra hne
        exact h4 hne
      have hne : (y * (c.imgWidth : Int) + x).toNat ≠ p := fun he => hp (he ▸ hkey)
      obtain ⟨ih1, ih2⟩ := flood_loop_preserves c target fill maxIter p hp fuel
        (pushNeighbors x y rest) (insert (y * (c.imgWidth : Int) + x) visited) (it + 1)
        ⟨writePixel st.buffer (y * (c.imgWidth : Int) + x).toNat fill,
          insert (y * (c.imgWidth : Int) + x).toNat st.painted⟩
      refine ⟨ih1.trans ?_, ih2.trans ?_⟩
      · simp [Finset.mem_insert, Ne.symm hne]
      · simp only [writePixel]
        exact List.getElem?_set_ne hne
    · exact ⟨Iff.rfl, rfl⟩

/-- C2: a pixel whose region id is a background sentinel is never added to
the painted set and never recoloured, by either brush mode at any centre
and radius and by flood fill at any seed. -/
theorem c2_background_never_painted (c : Canvas) (sel : Nat) (imgX imgY : Int)
    (radius : Nat) (isMagicBrush : Bool) (startX startY : Int)
    (st stf : PaintState) (p : Nat) (v : Nat)
    (hp : c.mapPixel[p]? = some v) (hv : v = 255 ∨ v = 254) :
    ((p ∈ (paintBrush c sel imgX imgY radius isMagicBrush st).1.painted ↔
      p ∈ st.painted) ∧
    (paintBrush c sel imgX imgY radius isMagicBrush st).1.buffer[p]? = st.buffer[p]? ∧
    (p ∈ (floodFill c sel startX startY stf).painted ↔ p ∈ stf.painted) ∧
    (floodFill c sel startX startY stf).buffer[p]? = stf.buffer[p]?) := by
  have hreg : regionAt c p = v := by
    rw [regionAt, List.getD_eq_getElem?_getD, hp]
    rfl
  have hsent : regionAt c p = 255 ∨ regionAt c p = 254 := by
    rw [hreg]; exact hv
  obtain ⟨b1, b2⟩ := brush_fold_sentinel c sel imgX imgY radius isMagicBrush p hsent
    (brushOffsets radius) (st, false)
  refine ⟨b1, b2, ?_⟩
  simp only [floodFill, floodFillRun, floodFillRunFuel]
  split_ifs with h1 h2 h3
  · exact ⟨Iff.rfl, rfl⟩
  · exact ⟨Iff.rfl, rfl⟩
  · exact ⟨Iff.rfl, rfl⟩
  · have htar : regionAt c p ≠ regionAt c (startY * (c.imgWidth : Int) + startX).toNat := by
      rw [hreg]
      intro he
      rcases hv with rfl | rfl
      · exact h2 (Or.inl he.symm)
      · exact h2 (Or.inr he.symm)
    exact flood_loop_preserves c _ _ _ p htar _ _ _ _ _

/-- C2 witness: on the fixture level, the background pixel 0 is untouched
by a magic-brush stroke over the whole image and by the flood fill of the
block. -/
theorem c2_witness :
    ((0 ∈ (paintBrush wCanvas 0 3 3 BRUSH_SIZES.large true wState).1.painted ↔
      0 ∈ wState.painted) ∧
    (paintBrush wCanvas 0 3 3 BRUSH_SIZES.large true wState).1.buffer[0]? =
      wState.buffer[0]? ∧
    (0 ∈ (floodFill wCanvas 0 3 3 wState).painted ↔ 0 ∈ wState.painted) ∧
    (floodFill wCanvas 0 3 3 wState).buffer[0]? = wState.buffer[0]?) :=
  c2_background_never_painted wCanvas 0 3 3 BRUSH_SIZES.large true 3 3 wState wState
    0 255 (by decide) (Or.inl rfl)

/-- The pixel key of in-bounds image coordinates is below the image area. -/
theorem key_toNat_lt (W H : Nat) (px py : Int) (hx0 : 0 ≤ px)
    (hx1 : px < (W : Int)) (hy0 : 0 ≤ py) (hy1 : py < (H : Int)) :
    (py * W + px).toNat < W * H := by
  have hW : (0 : Int) ≤ (W : Int) := Int.natCast_nonneg W
  have h0 : 0 ≤ py * (W : Int) + px := by
    have := mul_nonneg hy0 hW
    linarith
  have h2 : py * (W : Int) ≤ ((H : Int) - 1) * W :=
    mul_le_mul_of_nonneg_right (by omega) hW
  have h3 : ((H : Int) - 1) * W + W = W * H := by ring
  rw [Int.toNat_lt h0]
  push_cast
  linarith

/-- The whole brush fold only ever adds pixel keys below the image area to
the painted set, keeps the buffer length, and leaves every buffer entry at
or beyond the image area unchanged. -/
theorem brush_fold_bounds (c : Canvas) (sel : Nat) (imgX imgY : Int)
    (radius : Nat) (isMagicBrush : Bool) :
    ∀ (ds : List (Int × Int)) (acc : PaintState × Bool),
      ((ds.foldl (paintBrushStep c sel imgX imgY radius isMagicBrush) acc).1.painted ⊆
        acc.1.painted ∪ Finset.range (c.imgWidth * c.imgHeight)) ∧
      (ds.foldl (paintBrushStep c sel imgX imgY radius isMagicBrush) acc).1.buffer.length =
        acc.1.buffer.length ∧
      (ds.foldl (paintBrushStep c sel imgX imgY radius isMagicBrush) acc).1.buffer.drop
          (c.imgWidth * c.imgHeight) =
        acc.1.buffer.drop (c.imgWidth * c.imgHeight)
  | [], acc => ⟨Finset.subset_union_left, rfl, rfl⟩
  | d :: ds, acc => by
    rw [List.foldl_cons]
    rcases paintBrushStep_cases c sel imgX imgY radius isMagicBrush acc d with
      heq | ⟨color, _, _, _, hx0, hx1, hy0, hy1, heq⟩
    · rw [heq]
      exact brush_fold_bounds c sel imgX imgY radius isMagicBrush ds acc
    · rw [heq]
      obtain ⟨ih1, ih2, ih3⟩ := brush_fold_bounds c sel imgX imgY radius isMagicBrush ds
        (⟨writePixel acc.1.buffer ((imgY + d.2) * c.imgWidth + (imgX + d.1)).toNat color,
          insert ((imgY + d.2) * c.imgWidth + (imgX + d.1)).toNat acc.1.painted⟩, true)
      have hk : ((imgY + d.2) * c.imgWidth + (imgX + d.1)).toNat <
          c.imgWidth * c.imgHeight :=
        key_toNat_lt c.imgWidth c.imgHeight (imgX + d.1) (imgY + d.2) hx0 hx1 hy0 hy1
      refine ⟨?_, ?_, ?_⟩
      · intro k hmem
        rcases Finset.mem_union.1 (ih1 hmem) with hmem2 | hmem2
        · rcases Finset.mem_insert.1 hmem2 with rfl | hmem3
          · exact Finset.mem_union_right _ (Finset.mem_range.2 hk)
          · exact Finset.mem_union_left _ hmem3
        · exact Finset.mem_union_right _ hmem2
      · rw [ih2]
        simp [writePixel]
      · rw [ih3]
        simp only [writePixel]
        exact List.drop_set_of_lt _ _ hk

/-- C6: a brush stroke centred at image coordinates (0, 0) with the large
radius 28, in either mode, only adds pixel keys below the image area to the
painted set and never writes any buffer entry at or beyond the image area:
every out-of-bounds offset pixel is skipped by the bounds test. -/
theorem c6_brush_bounds (c : Canvas) (sel : Nat) (isMagicBrush : Bool)
    (st : PaintState) :
    (paintBrush c sel 0 0 BRUSH_SIZES.large isMagicBrush st).1.painted ⊆
      st.painted ∪ Finset.range (c.imgWidth * c.imgHeight) ∧
    (paintBrush c sel 0 0 BRUSH_SIZES.large isMagicBrush st).1.buffer.length =
      st.buffer.length ∧
    (paintBrush c sel 0 0 BRUSH_SIZES.large isMagicBrush st).1.buffer.drop
        (c.imgWidth * c.imgHeight) =
      st.buffer.drop (c.imgWidth * c.imgHeight) := by
  have h := brush_fold_bounds c sel 0 0 BRUSH_SIZES.large isMagicBrush
    (brushOffsets BRUSH_SIZES.large) (st, false)
  simp only [paintBrush]
  exact h

/-- One more unit of fuel changes nothing once the fuel covers the
remaining work: each loop step pops one pair and only an inclusion pushes
eight more, with at most maxIter - it inclusions left. -/
theorem flood_loop_fuel_succ (c : Canvas) (target : Nat) (fill : Rgb)
    (maxIter : Nat) :
    ∀ (fuel : Nat) (stack : List (Int × Int)) (visited : Finset Int) (it : Nat)
      (st : PaintState),
      stack.length + 9 * (maxIter - it) ≤ fuel →
      floodFillLoop c target fill maxIter (fuel + 1) stack visited it st =
        floodFillLoop c target fill maxIter fuel stack visited it st
  | fuel, [], visited, it, st, _ => by cases fuel <;> rfl
  | 0, (x, y) :: rest, visited, it, st, h => by simp at h
  | fuel + 1, (x, y) :: rest, visited, it, st, h => by
    simp only [List.length_cons] at h
    rw [floodFillLoop.eq_3, floodFillLoop.eq_3]
    simp only []
    split_ifs with h1 h2 h3 h4
    · exact flood_loop_fuel_succ c target fill maxIter fuel rest visited it st (by omega)
    · exact flood_loop_fuel_succ c target fill maxIter fuel rest visited it st (by omega)
    · exact flood_loop_fuel_succ c target fill maxIter fuel rest visited it st (by omega)
    · refine flood_loop_fuel_succ c target fill maxIter fuel (pushNeighbors x y rest) _ _ _ ?_
      simp only [pushNeighbors, List.length_cons]
      omega
    · rfl

/-- Any amount of extra fuel beyond the remaining-work bound is
irrelevant. -/
theorem flood_loop_fuel_add (c : Canvas) (target : Nat) (fill : Rgb)
    (maxIter : Nat) (fuel : Nat) (stack : List (Int × Int)) (visited : Finset Int)
    (it : Nat) (st : PaintState)
    (h : stack.length + 9 * (maxIter - it) ≤ fuel) :
    ∀ extra : Nat,
      floodFillLoop c target fill maxIter (fuel + extra) stack visited it st =
        floodFillLoop c target fill maxIter fuel stack visited it st
  | 0 => rfl
  | extra + 1 => by
    have hstep := flood_loop_fuel_succ c target fill maxIter (fuel + extra) stack
      visited it st (le_trans h (Nat.le_add_right fuel extra))
    calc floodFillLoop c target fill maxIter (fuel + (extra + 1)) stack visited it st
        = floodFillLoop c target fill maxIter (fuel + extra) stack visited it st := hstep
      _ = floodFillLoop c target fill maxIter fuel stack visited it st :=
        flood_loop_fuel_add c target fill maxIter fuel stack visited it st h extra

/-- The loop includes each pixel at most once: the visited set grows by
exactly one per counted iteration, and the counter never passes the cap. -/
theorem flood_loop_card (c : Canvas) (target : Nat) (fill : Rgb)
    (maxIter : Nat) :
    ∀ (fuel : Nat) (stack : List (Int × Int)) (visited : Finset Int) (it : Nat)
      (st : PaintState),
      visited.card = it → it ≤ maxIter →
      ((floodFillLoop c target fill maxIter fuel stack visited it st).visited.card =
        (floodFillLoop c target fill maxIter fuel stack visited it st).iterations ∧
      (floodFillLoop c target fill maxIter fuel stack visited it st).iterations ≤ maxIter)
  | 0, stack, visited, it, st, hcard, hle => ⟨hcard, hle⟩
  | _ + 1, [], visited, it, st, hcard, hle => ⟨hcard, hle⟩
  | fuel + 1, (x, y) :: rest, visited, it, st, hcard, hle => by
    simp only [floodFillLoop]
    split_ifs with h1 h2 h3 h4
    · exact flood_loop_card c target fill maxIter fuel rest visited it st hcard hle
    · exact flood_loop_card c target fill maxIter fuel rest visited it st hcard hle
    · exact flood_loop_card c target fill maxIter fuel rest visited it st hcard hle
    · refine flood_loop_card c target fill maxIter fuel (pushNeighbors x y rest) _ _ _ ?_ ?_
      · rw [Finset.card_insert_of_not_mem h2, hcard]
      · omega
    · exact ⟨hcard, hle⟩

/-- The refined flood fill: extra fuel is irrelevant, each pixel is
included at most once, and the iteration count stays within the image-area
cap. -/
theorem flood_run_props (c : Canvas) (sel : Nat) (startX startY : Int)
    (st : PaintState) :
    (∀ extra : Nat,
      floodFillRunFuel c sel startX startY st
        (1 + 9 * (c.imgWidth * c.imgHeight) + extra) =
      floodFillRun c sel startX startY st) ∧
    (floodFillRun c sel startX startY st).visited.card =
      (floodFillRun c sel startX startY st).iterations ∧
    (floodFillRun c sel startX startY st).iterations ≤ c.imgWidth * c.imgHeight := by
  simp only [floodFillRun, floodFillRunFuel]
  split_ifs with h1 h2 h3
  · exact ⟨fun _ => rfl, by simp, Nat.zero_le _⟩
  · exact ⟨fun _ => rfl, by simp, Nat.zero_le _⟩
  · exact ⟨fun _ => rfl, by simp, Nat.zero_le _⟩
  · constructor
    · intro extra
      exact flood_loop_fuel_add c _ _ (c.imgWidth * c.imgHeight)
        (1 + 9 * (c.imgWidth * c.imgHeight)) [(startX, startY)] ∅ 0 st (by simp) extra
    · exact flood_loop_card c _ _ (c.imgWidth * c.imgHeight) _ [(startX, startY)] ∅ 0 st
        (by simp) (Nat.zero_le _)

/-- The legacy flood fill of the older canvas variant: each pixel is
included at most once and the iteration count stays within the fixed cap
50000. -/
theorem flood_legacy_props (c : Canvas) (sel : Nat) (startX startY : Int)
    (st : PaintState) :
    (floodFillRunLegacy c sel startX startY st).visited.card =
      (floodFillRunLegacy c sel startX startY st).iterations ∧
    (floodFillRunLegacy c sel startX startY st).iterations ≤ 50000 := by
  simp only [floodFillRunLegacy]
  split_ifs with h1 h2 h3
  · exact ⟨by simp, Nat.zero_le _⟩
  · exact ⟨by simp, Nat.zero_le _⟩
  · exact ⟨by simp, Nat.zero_le _⟩
  · exact flood_loop_card c _ _ 50000 _ [(startX, startY)] ∅ 0 st (by simp) (Nat.zero_le _)

/-- C7: flood fill always terminates: any fuel beyond the canonical bound
gives the same result, so the loop ends by emptying its stack or by hitting
the cap; the visited set makes the loop include each pixel at most once
(the visited cardinality equals the iteration count); and the count of
included pixels is at most maxIterationsPerFrame, which is the image area
in the refined canvas variant and 50000 in the older variant. -/
theorem c7_floodFill_terminates (c : Canvas) (sel : Nat) (startX startY : Int)
    (st : PaintState) (extra : Nat) :
    floodFillRunFuel c sel startX startY st
      (1 + 9 * (c.imgWidth * c.imgHeight) + extra) =
      floodFillRun c sel startX startY st ∧
    (floodFillRun c sel startX startY st).visited.card =
      (floodFillRun c sel startX startY st).iterations ∧
    (floodFillRun c sel startX startY st).iterations ≤ c.imgWidth * c.imgHeight ∧
    (floodFillRunLegacy c sel startX startY st).visited.card =
      (floodFillRunLegacy c sel startX startY st).iterations ∧
    (floodFillRunLegacy c sel startX startY st).iterations ≤ 50000 := by
  obtain ⟨h1, h2, h3⟩ := flood_run_props c sel startX startY st
  obtain ⟨h4, h5⟩ := flood_legacy_props c sel startX startY st
  exact ⟨h1 extra, h2, h3, h4, h5⟩

/-- Block coordinates are strictly inside the image when the surrounding
ring fits. -/
theorem inBlock_inBounds (blockX blockY x y : Int) (W H : Nat)
    (h1 : 1 ≤ blockX) (h2 : blockX + 6 ≤ (W : Int))
    (h3 : 1 ≤ blockY) (h4 : blockY + 6 ≤ (H : Int))
    (h : inBlock blockX blockY x y) :
    0 ≤ x ∧ x < (W : Int) ∧ 0 ≤ y ∧ y < (H : Int) := by
  obtain ⟨a, b, d, e⟩ := h
  omega

/-- Ring coordinates are inside the image when the ring fits. -/
theorem inRing_inBounds (blockX blockY x y : Int) (W H : Nat)
    (h1 : 1 ≤ blockX) (h2 : blockX + 6 ≤ (W : Int))
    (h3 : 1 ≤ blockY) (h4 : blockY + 6 ≤ (H : Int))
    (h : inRing blockX blockY x y) :
    0 ≤ x ∧ x < (W : Int) ∧ 0 ≤ y ∧ y < (H : Int) := by
  obtain ⟨a, b, d, e, _⟩ := h
  omega

/-- Pixel keys determine in-bounds coordinates uniquely: two coordinates
with x components inside the row width and equal keys coincide. -/
theorem key_inj (W : Nat) (x x' y y' : Int)
    (hx0 : 0 ≤ x) (hx1 : x < (W : Int)) (hx0' : 0 ≤ x') (hx1' : x' < (W : Int))
    (heq : y * W + x = y' * W + x') : x = x' ∧ y = y' := by
  have hW : (0 : Int) < W := lt_of_le_of_lt hx0 hx1
  have hx : (y * (W : Int) + x) % W = x := by
    rw [add_comm, Int.add_mul_emod_self]
    exact Int.emod_eq_of_lt hx0 hx1
  have hx' : (y' * (W : Int) + x') % W = x' := by
    rw [add_comm, Int.add_mul_emod_self]
    exact Int.emod_eq_of_lt hx0' hx1'
  rw [heq, hx'] at hx
  refine ⟨hx.symm, ?_⟩
  have hy : y * (W : Int) = y' * W := by omega
  exact mul_right_cancel₀ (ne_of_gt hW) hy

/-- An 8-neighbour of a block pixel lies in the block or in its ring. -/
theorem neighbor_block_or_ring (blockX blockY x y qx qy : Int)
    (h : inBlock blockX blockY x y)
    (hdx : (x - qx).natAbs ≤ 1) (hdy : (y - qy).natAbs ≤ 1) :
    inBlock blockX blockY qx qy ∨ inRing blockX blockY qx qy := by
  obtain ⟨a, b, d, e⟩ := h
  simp only [inBlock, inRing]
  omega

/-- Every 8-neighbour of (x, y) is on the stack after its neighbours are
pushed. -/
theorem adj_mem_pushNeighbors (x y : Int) (q : Int × Int)
    (rest : List (Int × Int)) (h : adj (x, y) q) : q ∈ pushNeighbors x y rest := by
  obtain ⟨qx, qy⟩ := q
  obtain ⟨hdx, hdy, hne⟩ := h
  have hdx' : (x - qx).natAbs ≤ 1 := hdx
  have hdy' : (y - qy).natAbs ≤ 1 := hdy
  have hne' : ¬(qx = x ∧ qy = y) := by
    rintro ⟨rfl, rfl⟩
    exact hne rfl
  have hx9 : qx = x - 1 ∨ qx = x ∨ qx = x + 1 := by omega
  have hy9 : qy = y - 1 ∨ qy = y ∨ qy = y + 1 := by omega
  rcases hx9 with rfl | rfl | rfl <;> rcases hy9 with rfl | rfl | rfl <;>
    simp only [pushNeighbors] <;>
    first
      | (exfalso; omega)
      | (repeat first
          | exact List.mem_cons_self _ _
          | apply List.mem_cons_of_mem)

/-- The rest of the stack survives a neighbour push. -/
theorem mem_pushNeighbors_of_mem (x y : Int) (q : Int × Int)
    (rest : List (Int × Int)) (h : q ∈ rest) : q ∈ pushNeighbors x y rest := by
  simp [pushNeighbors, h]

/-- The key of a block pixel is one of the 25 integer block keys. -/
theorem mem_blockKeysI_of_inBlock (c : Canvas) (blockX blockY x y : Int)
    (h : inBlock blockX blockY x y) :
    y * c.imgWidth + x ∈ blockKeysI c blockX blockY := by
  obtain ⟨a, b, d, e⟩ := h
  refine Finset.mem_image.mpr ⟨((x - blockX).toNat, (y - blockY).toNat), ?_, ?_⟩
  · simp only [Finset.mem_product, Finset.mem_range]
    omega
  · have hx : (((x - blockX).toNat : Int)) = x - blockX := Int.toNat_of_nonneg (by omega)
    have hy : (((y - blockY).toNat : Int)) = y - blockY := Int.toNat_of_nonneg (by omega)
    simp only [hx, hy]
    ring

/-- Conversely every integer block key comes from a block pixel. -/
theorem inBlock_of_mem_blockKeysI (c : Canvas) (blockX blockY : Int) (k : Int)
    (h : k ∈ blockKeysI c blockX blockY) :
    ∃ x y : Int, inBlock blockX blockY x y ∧ k = y * c.imgWidth + x := by
  obtain ⟨⟨i, j⟩, hij, hk⟩ := Finset.mem_image.mp h
  simp only [Finset.mem_product, Finset.mem_range] at hij
  refine ⟨blockX + (i : Int), blockY + (j : Int), ?_, hk.symm⟩
  simp only [inBlock]
  omega

/-- The 25 integer block keys are pairwise distinct. -/
theorem blockKeysI_card (c : Canvas) (blockX blockY : Int)
    (h1 : 1 ≤ blockX) (h2 : blockX + 6 ≤ (c.imgWidth : Int))
    (h3 : 1 ≤ blockY) (h4 : blockY + 6 ≤ (c.imgHeight : Int)) :
    (blockKeysI c blockX blockY).card = 25 := by
  have hinj : Set.InjOn
      (fun ij : Nat × Nat => (blockY + (ij.2 : Int)) * c.imgWidth + (blockX + (ij.1 : Int)))
      ↑(Finset.range 5 ×ˢ Finset.range 5) := by
    rintro ⟨i, j⟩ hij ⟨i', j'⟩ hij' heq
    simp only [Finset.coe_product, Set.mem_prod, Finset.mem_coe, Finset.mem_range] at hij hij'
    dsimp only at heq
    obtain ⟨hx, hy⟩ := key_inj c.imgWidth (blockX + (i : Int)) (blockX + (i' : Int))
      (blockY + (j : Int)) (blockY + (j' : Int))
      (by omega) (by omega) (by omega) (by omega) heq
    have hi : i = i' := by omega
    have hj : j = j' := by omega
    subst hi
    subst hj
    rfl
  rw [blockKeysI, Finset.card_image_of_injOn hinj, Finset.card_product,
    Finset.card_range]

/-- Every integer block key is nonnegative. -/
theorem blockKeysI_nonneg (c : Canvas) (blockX blockY : Int)
    (h1 : 1 ≤ blockX) (h2 : blockX + 6 ≤ (c.imgWidth : Int))
    (h3 : 1 ≤ blockY) (h4 : blockY + 6 ≤ (c.imgHeight : Int)) :
    ∀ k ∈ blockKeysI c blockX blockY, 0 ≤ k := by
  intro k hk
  obtain ⟨x, y, hb, rfl⟩ := inBlock_of_mem_blockKeysI c blockX blockY k hk
  obtain ⟨hx0, _, hy0, _⟩ := inBlock_inBounds blockX blockY x y
    c.imgWidth c.imgHeight h1 h2 h3 h4 hb
  have := mul_nonneg hy0 (Int.natCast_nonneg c.imgWidth)
  omega

/-- The natural block keys are the truncations of the integer block keys. -/
theorem blockKeys_eq_image (c : Canvas) (blockX blockY : Int) :
    blockKeys c blockX blockY = (blockKeysI c blockX blockY).image Int.toNat := by
  rw [blockKeys, blockKeysI, Finset.image_image]
  rfl

/-- Transfer of block-key membership between the natural and the integer
versions. -/
theorem mem_blockKeys_iff (c : Canvas) (blockX blockY : Int) (k : Nat)
    (h1 : 1 ≤ blockX) (h2 : blockX + 6 ≤ (c.imgWidth : Int))
    (h3 : 1 ≤ blockY) (h4 : blockY + 6 ≤ (c.imgHeight : Int)) :
    k ∈ blockKeys c blockX blockY ↔ (k : Int) ∈ blockKeysI c blockX blockY := by
  rw [blockKeys_eq_image]
  constructor
  · intro hk
    obtain ⟨key, hkey, hkk⟩ := Finset.mem_image.mp hk
    have h0 := blockKeysI_nonneg c blockX blockY h1 h2 h3 h4 key hkey
    have hke : (k : Int) = key := by omega
    rw [hke]
    exact hkey
  · intro hk
    refine Finset.mem_image.mpr ⟨(k : Int), hk, ?_⟩
    omega

/-- There are exactly 25 natural block keys. -/
theorem blockKeys_card (c : Canvas) (blockX blockY : Int)
    (h1 : 1 ≤ blockX) (h2 : blockX + 6 ≤ (c.imgWidth : Int))
    (h3 : 1 ≤ blockY) (h4 : blockY + 6 ≤ (c.imgHeight : Int)) :
    (blockKeys c blockX blockY).card = 25 := by
  rw [blockKeys_eq_image]
  rw [Finset.card_image_of_injOn, blockKeysI_card c blockX blockY h1 h2 h3 h4]
  intro a ha b hb hab
  have ha0 := blockKeysI_nonneg c blockX blockY h1 h2 h3 h4 a ha
  have hb0 := blockKeysI_nonneg c blockX blockY h1 h2 h3 h4 b hb
  omega

/-- The bounded form of the uniform-block hypothesis gives the region id of
every block pixel. -/
theorem regionAt_of_inBlock (c : Canvas) (blockX blockY : Int) (R : Nat)
    (hblock : ∀ i : Nat, i < 5 → ∀ j : Nat, j < 5 →
      regionAt c ((blockY + (j : Int)) * c.imgWidth + (blockX + (i : Int))).toNat = R) :
    ∀ x y : Int, inBlock blockX blockY x y →
      regionAt c (y * c.imgWidth + x).toNat = R := by
  intro x y h
  obtain ⟨a, b, d, e⟩ := h
  have hi := hblock (x - blockX).toNat (by omega) (y - blockY).toNat (by omega)
  rw [Int.toNat_of_nonneg (by omega : (0 : Int) ≤ x - blockX),
    Int.toNat_of_nonneg (by omega : (0 : Int) ≤ y - blockY)] at hi
  have hx : blockX + (x - blockX) = x := by ring
  have hy : blockY + (y - blockY) = y := by ring
  rwa [hx, hy] at hi

/-- The bounded form of the background-ring hypothesis gives the region id
of every ring pixel. -/
theorem regionAt_of_inRing (c : Canvas) (blockX blockY : Int)
    (hring : ∀ i : Nat, i < 7 → ∀ j : Nat, j < 7 → (i = 0 ∨ i = 6 ∨ j = 0 ∨ j = 6) →
      regionAt c ((blockY - 1 + (j : Int)) * c.imgWidth + (blockX - 1 + (i : Int))).toNat = 255 ∨
      regionAt c ((blockY - 1 + (j : Int)) * c.imgWidth + (blockX - 1 + (i : Int))).toNat = 254) :
    ∀ x y : Int, inRing blockX blockY x y →
      regionAt c (y * c.imgWidth + x).toNat = 255 ∨
      regionAt c (y * c.imgWidth + x).toNat = 254 := by
  intro x y h
  obtain ⟨a, b, d, e, hnb⟩ := h
  simp only [inBlock, not_and, not_lt] at hnb
  have hborder : (x - (blockX - 1)).toNat = 0 ∨ (x - (blockX - 1)).toNat = 6 ∨
      (y - (blockY - 1)).toNat = 0 ∨ (y - (blockY - 1)).toNat = 6 := by omega
  have hi := hring (x - (blockX - 1)).toNat (by omega) (y - (blockY - 1)).toNat
    (by omega) hborder
  rw [Int.toNat_of_nonneg (by omega : (0 : Int) ≤ x - (blockX - 1)),
    Int.toNat_of_nonneg (by omega : (0 : Int) ≤ y - (blockY - 1))] at hi
  have hx : blockX - 1 + (x - (blockX - 1)) = x := by ring
  have hy : blockY - 1 + (y - (blockY - 1)) = y := by ring
  rwa [hx, hy] at hi

/-- A set of keys that contains the seed key and is closed under
8-adjacency inside the block contains every block key: the block is
8-connected through componentwise steps toward the seed. -/
theorem block_connected (W : Nat) (blockX blockY sx sy : Int) (S : Finset Int)
    (hseed : inBlock blockX blockY sx sy)
    (hseedS : sy * W + sx ∈ S)
    (hclosed : ∀ qx qy : Int, inBlock blockX blockY qx qy →
      (∃ px py : Int, inBlock blockX blockY px py ∧ (py * W + px) ∈ S ∧
        adj (px, py) (qx, qy)) →
      qy * W + qx ∈ S) :
    ∀ qx qy : Int, inBlock blockX blockY qx qy → qy * W + qx ∈ S := by
  suffices h : ∀ n : Nat, ∀ qx qy : Int, inBlock blockX blockY qx qy →
      (qx - sx).natAbs + (qy - sy).natAbs ≤ n → qy * W + qx ∈ S by
    intro qx qy hq
    exact h ((qx - sx).natAbs + (qy - sy).natAbs) qx qy hq le_rfl
  intro n
  induction n with
  | zero =>
    intro qx qy hq hn
    have hqs : qx = sx ∧ qy = sy := by omega
    obtain ⟨rfl, rfl⟩ := hqs
    exact hseedS
  | succ n ih =>
    intro qx qy hq hn
    by_cases hqs : qx = sx ∧ qy = sy
    · obtain ⟨rfl, rfl⟩ := hqs
      exact hseedS
    · obtain ⟨a, b, d, e⟩ := hq
      obtain ⟨a', b', d', e'⟩ := hseed
      have hpb : inBlock blockX blockY (stepToward sx qx) (stepToward sy qy) := by
        simp only [inBlock, stepToward]
        split_ifs <;> omega
      have hadj : adj (stepToward sx qx, stepToward sy qy) (qx, qy) := by
        refine ⟨?_, ?_, ?_⟩
        · simp only [stepToward]
          split_ifs <;> omega
        · simp only [stepToward]
          split_ifs <;> omega
        · simp only [Ne, Prod.mk.injEq, not_and, stepToward]
          split_ifs <;> omega
      have hdec : (stepToward sx qx - sx).natAbs + (stepToward sy qy - sy).natAbs ≤ n := by
        simp only [stepToward]
        split_ifs <;> omega
      exact hclosed qx qy ⟨a, b, d, e⟩
        ⟨_, _, hpb, ih _ _ hpb hdec, hadj⟩

/-- Main flood-fill loop invariant for the uniform 5 by 5 block surrounded
by background: whenever the stack only holds block or ring pixels, the
visited keys are block keys matching the iteration count, the state records
exactly the visited writes, every block pixel bordering a visited pixel is
visited or pending, and the seed is visited or pending, the loop ends with
exactly the whole block visited, painted and coloured. -/
theorem c1_loop_invariant (c : Canvas) (R : Nat) (blockX blockY sx sy : Int)
    (st0 : PaintState) (fillRgb : Rgb)
    (h1 : 1 ≤ blockX) (h2 : blockX + 6 ≤ (c.imgWidth : Int))
    (h3 : 1 ≤ blockY) (h4 : blockY + 6 ≤ (c.imgHeight : Int))
    (hR255 : R ≠ 255) (hR254 : R ≠ 254)
    (hblockR : ∀ x y : Int, inBlock blockX blockY x y →
      regionAt c (y * c.imgWidth + x).toNat = R)
    (hringBg : ∀ x y : Int, inRing blockX blockY x y →
      regionAt c (y * c.imgWidth + x).toNat = 255 ∨
      regionAt c (y * c.imgWidth + x).toNat = 254)
    (hseed : inBlock blockX blockY sx sy) :
    ∀ (fuel : Nat) (stack : List (Int × Int)) (visited : Finset Int) (it : Nat)
      (st : PaintState),
      (∀ p ∈ stack, inBlock blockX blockY p.1 p.2 ∨ inRing blockX blockY p.1 p.2) →
      visited ⊆ blockKeysI c blockX blockY →
      it = visited.card →
      st.painted = st0.painted ∪ visited.image Int.toNat →
      st.buffer.length = c.imgWidth * c.imgHeight →
      (∀ k : Nat,
        ((k : Int) ∈ visited →
          st.buffer[k]? = some ⟨fillRgb.r, fillRgb.g, fillRgb.b, 255⟩) ∧
        ((k : Int) ∉ visited → st.buffer[k]? = st0.buffer[k]?)) →
      (∀ qx qy : Int, inBlock blockX blockY qx qy →
        (∃ px py : Int, inBlock blockX blockY px py ∧
          (py * c.imgWidth + px) ∈ visited ∧ adj (px, py) (qx, qy)) →
        (qy * c.imgWidth + qx) ∈ visited ∨ (qx, qy) ∈ stack) →
      ((sy * c.imgWidth + sx) ∈ visited ∨ (sx, sy) ∈ stack) →
      stack.length + 9 * (26 - it) ≤ fuel →
      (floodFillLoop c R fillRgb (c.imgWidth * c.imgHeight) fuel stack visited it
          st).visited = blockKeysI c blockX blockY ∧
      (floodFillLoop c R fillRgb (c.imgWidth * c.imgHeight) fuel stack visited it
          st).state.painted = st0.painted ∪ blockKeys c blockX blockY ∧
      ∀ k : Nat,
        (k ∈ blockKeys c blockX blockY →
          (floodFillLoop c R fillRgb (c.imgWidth * c.imgHeight) fuel stack visited it
            st).state.buffer[k]? = some ⟨fillRgb.r, fillRgb.g, fillRgb.b, 255⟩) ∧
        (k ∉ blockKeys c blockX blockY →
          (floodFillLoop c R fillRgb (c.imgWidth * c.imgHeight) fuel stack visited it
            st).state.buffer[k]? = st0.buffer[k]?) := by
  intro fuel
  induction fuel with
  | zero =>
    intro stack visited it st hstack hvis hit hpainted hblen hbufinv hclosure hseedin hfuel
    exfalso
    have hit25 : it ≤ 25 := by
      rw [hit]
      calc visited.card ≤ (blockKeysI c blockX blockY).card := Finset.card_le_card hvis
        _ = 25 := blockKeysI_card c blockX blockY h1 h2 h3 h4
    omega
  | succ fuel ih =>
    intro stack visited it st hstack hvis hit hpainted hblen hbufinv hclosure hseedin hfuel
    have hit25 : it ≤ 25 := by
      rw [hit]
      calc visited.card ≤ (blockKeysI c blockX blockY).card := Finset.card_le_card hvis
        _ = 25 := blockKeysI_card c blockX blockY h1 h2 h3 h4
    have hW7 : 7 ≤ c.imgWidth := by
      have : (7 : Int) ≤ (c.imgWidth : Int) := by omega
      exact_mod_cast this
    have hH7 : 7 ≤ c.imgHeight := by
      have : (7 : Int) ≤ (c.imgHeight : Int) := by omega
      exact_mod_cast this
    have hWH : 49 ≤ c.imgWidth * c.imgHeight := Nat.mul_le_mul hW7 hH7
    have hltcap : it < c.imgWidth * c.imgHeight := by omega
    cases stack with
    | nil =>
      simp only [floodFillLoop]
      have hseedv : sy * (c.imgWidth : Int) + sx ∈ visited := by
        rcases hseedin with hin | hmem
        · exact hin
        · simp at hmem
      have hclosed : ∀ qx qy : Int, inBlock blockX blockY qx qy →
          (∃ px py : Int, inBlock blockX blockY px py ∧
            (py * c.imgWidth + px) ∈ visited ∧ adj (px, py) (qx, qy)) →
          qy * c.imgWidth + qx ∈ visited := by
        intro qx qy hq hex
        rcases hclosure qx qy hq hex with hin | hmem
        · exact hin
        · simp at hmem
      have hvfull : visited = blockKeysI c blockX blockY := by
        refine Finset.Subset.antisymm hvis ?_
        intro k hk
        obtain ⟨qx, qy, hq, rfl⟩ := inBlock_of_mem_blockKeysI c blockX blockY k hk
        exact block_connected c.imgWidth blockX blockY sx sy visited hseed hseedv
          hclosed qx qy hq
      refine ⟨hvfull, ?_, ?_⟩
      · rw [hpainted, hvfull, blockKeys_eq_image]
      · intro k
        constructor
        · intro hk
          have hki : (k : Int) ∈ visited := by
            rw [hvfull]
            exact (mem_blockKeys_iff c blockX blockY k h1 h2 h3 h4).mp hk
          exact (hbufinv k).1 hki
        · intro hk
          have hki : (k : Int) ∉ visited := by
            rw [hvfull]
            intro hmem
            exact hk ((mem_blockKeys_iff c blockX blockY k h1 h2 h3 h4).mpr hmem)
          exact (hbufinv k).2 hki
    | cons p rest =>
      obtain ⟨x, y⟩ := p
      simp only [floodFillLoop]
      rw [if_pos hltcap]
      by_cases hc2 : y * (c.imgWidth : Int) + x ∈ visited
      · rw [if_pos hc2]
        refine ih rest visited it st ?_ hvis hit hpainted hblen hbufinv ?_ ?_ ?_
        · intro p hp
          exact hstack p (List.mem_cons_of_mem _ hp)
        · intro qx qy hq hex
          rcases hclosure qx qy hq hex with hin | hmem
          · exact Or.inl hin
          · rcases List.mem_cons.mp hmem with heq | hmem2
            · left
              injection heq with hqx hqy
              subst hqx
              subst hqy
              exact hc2
            · exact Or.inr hmem2
        · rcases hseedin with hin | hmem
          · exact Or.inl hin
          · rcases List.mem_cons.mp hmem with heq | hmem2
            · left
              injection heq with hqx hqy
              subst hqx
              subst hqy
              exact hc2
            · exact Or.inr hmem2
        · simp only [List.length_cons] at hfuel
          omega
      · rw [if_neg hc2]
        by_cases hc3 : x < 0 ∨ (c.imgWidth : Int) ≤ x ∨ y < 0 ∨ (c.imgHeight : Int) ≤ y
        · exfalso
          rcases hstack _ (List.mem_cons_self _ _) with hb | hr
          · have := inBlock_inBounds blockX blockY x y c.imgWidth c.imgHeight h1 h2 h3 h4 hb
            omega
          · have := inRing_inBounds blockX blockY x y c.imgWidth c.imgHeight h1 h2 h3 h4 hr
            omega
        · rw [if_neg hc3]
          by_cases hc4 : regionAt c (y * (c.imgWidth : Int) + x).toNat ≠ R
          · rw [if_pos hc4]
            have hxy : inRing blockX blockY x y := by
              rcases hstack _ (List.mem_cons_self _ _) with hb | hr
              · exact absurd (hblockR x y hb) hc4
              · exact hr
            refine ih rest visited it st ?_ hvis hit hpainted hblen hbufinv ?_ ?_ ?_
            · intro p hp
              exact hstack p (List.mem_cons_of_mem _ hp)
            · intro qx qy hq hex
              rcases hclosure qx qy hq hex with hin | hmem
              · exact Or.inl hin
              · rcases List.mem_cons.mp hmem with heq | hmem2
                · exfalso
                  injection heq with hqx hqy
                  subst hqx
                  subst hqy
                  exact hxy.2.2.2.2 hq
                · exact Or.inr hmem2
            · rcases hseedin with hin | hmem
              · exact Or.inl hin
              · rcases List.mem_cons.mp hmem with heq | hmem2
                · exfalso
                  injection heq with hqx hqy
                  subst hqx
                  subst hqy
                  exact hxy.2.2.2.2 hseed
                · exact Or.inr hmem2
            · simp only [List.length_cons] at hfuel
              omega
          · rw [if_neg hc4]
            have hreg : regionAt c (y * (c.imgWidth : Int) + x).toNat = R :=
              not_ne_iff.mp hc4
            have hxyb : inBlock blockX blockY x y := by
              rcases hstack _ (List.mem_cons_self _ _) with hb | hr
              · exact hb
              · rcases hringBg x y hr with h5 | h5
                · exact absurd (hreg.symm.trans h5) hR255
                · exact absurd (hreg.symm.trans h5) hR254
            push_neg at hc3
            obtain ⟨hx0, hx1, hy0, hy1⟩ := hc3
            have hkey0 : 0 ≤ y * (c.imgWidth : Int) + x :=
              add_nonneg (mul_nonneg hy0 (Int.natCast_nonneg _)) hx0
            have hkeylt : (y * (c.imgWidth : Int) + x).toNat < c.imgWidth * c.imgHeight :=
              key_toNat_lt c.imgWidth c.imgHeight x y hx0 hx1 hy0 hy1
            have hvis' : insert (y * (c.imgWidth : Int) + x) visited ⊆
                blockKeysI c blockX blockY :=
              Finset.insert_subset (mem_blockKeysI_of_inBlock c blockX blockY x y hxyb) hvis
            have hit1 : it + 1 = (insert (y * (c.imgWidth : Int) + x) visited).card := by
              rw [Finset.card_insert_of_not_mem hc2, hit]
            have hit24 : it + 1 ≤ 25 := by
              rw [hit1]
              calc (insert (y * (c.imgWidth : Int) + x) visited).card ≤
                  (blockKeysI c blockX blockY).card := Finset.card_le_card hvis'
                _ = 25 := blockKeysI_card c blockX blockY h1 h2 h3 h4
            refine ih (pushNeighbors x y rest)
              (insert (y * (c.imgWidth : Int) + x) visited)
              (it + 1) _ ?_ hvis' hit1 ?_ ?_ ?_ ?_ ?_ ?_
            · intro p hp
              simp only [pushNeighbors, List.mem_cons] at hp
              rcases hp with rfl | rfl | rfl | rfl | rfl | rfl | rfl | rfl | hp
              · exact neighbor_block_or_ring blockX blockY x y _ _ hxyb (by omega) (by omega)
              · exact neighbor_block_or_ring blockX blockY x y _ _ hxyb (by omega) (by omega)
              · exact neighbor_block_or_ring blockX blockY x y _ _ hxyb (by omega) (by omega)
              · exact neighbor_block_or_ring blockX blockY x y _ _ hxyb (by omega) (by omega)
              · exact neighbor_block_or_ring blockX blockY x y _ _ hxyb (by omega) (by omega)
              · exact neighbor_block_or_ring blockX blockY x y _ _ hxyb (by omega) (by omega)
              · exact neighbor_block_or_ring blockX blockY x y _ _ hxyb (by omega) (by omega)
              · exact neighbor_block_or_ring blockX blockY x y _ _ hxyb (by omega) (by omega)
              · exact hstack p (List.mem_cons_of_mem _ hp)
            · show insert (y * (c.imgWidth : Int) + x).toNat st.painted =
                st0.painted ∪ (insert (y * (c.imgWidth : Int) + x) visited).image Int.toNat
              rw [Finset.image_insert, hpainted, Finset.union_insert]
            · show (writePixel st.buffer (y * (c.imgWidth : Int) + x).toNat fillRgb).length =
                c.imgWidth * c.imgHeight
              simp [writePixel, hblen]
            · intro k
              constructor
              · intro hk
                rcases Finset.mem_insert.mp hk with heq | hmem
                · have hkk : k = (y * (c.imgWidth : Int) + x).toNat := by
                    rw [← Int.toNat_natCast k, heq]
                  subst hkk
                  show (writePixel st.buffer _ fillRgb)[(y * (c.imgWidth : Int) + x).toNat]? = _
                  simp only [writePixel]
                  rw [List.getElem?_set_self (by rw [hblen]; exact hkeylt)]
                · have hne : k ≠ (y * (c.imgWidth : Int) + x).toNat := by
                    intro he
                    apply hc2
                    have hkk : (k : Int) = y * (c.imgWidth : Int) + x := by
                      rw [he, Int.toNat_of_nonneg hkey0]
                    rwa [hkk] at hmem
                  show (writePixel st.buffer _ fillRgb)[k]? = _
                  simp only [writePixel]
                  rw [List.getElem?_set_ne (Ne.symm hne)]
                  exact (hbufinv k).1 hmem
              · intro hk
                rw [Finset.mem_insert] at hk
                push_neg at hk
                obtain ⟨hne, hnm⟩ := hk
                have hnek : k ≠ (y * (c.imgWidth : Int) + x).toNat := by
                  intro he
                  exact hne (by rw [he, Int.toNat_of_nonneg hkey0])
                show (writePixel st.buffer _ fillRgb)[k]? = _
                simp only [writePixel]
                rw [List.getElem?_set_ne (Ne.symm hnek)]
                exact (hbufinv k).2 hnm
            · intro qx qy hq hex
              obtain ⟨px, py, hpb, hpv, hadj⟩ := hex
              rcases Finset.mem_insert.mp hpv with heq | hmem
              · have hbx := inBlock_inBounds blockX blockY px py c.imgWidth c.imgHeight
                  h1 h2 h3 h4 hpb
                obtain ⟨hpx, hpy⟩ := key_inj c.imgWidth px x py y hbx.1 hbx.2.1 hx0 hx1 heq
                subst hpx
                subst hpy
                exact Or.inr (adj_mem_pushNeighbors px py (qx, qy) rest hadj)
              · rcases hclosure qx qy hq ⟨px, py, hpb, hmem, hadj⟩ with hin | hsm
                · exact Or.inl (Finset.mem_insert_of_mem hin)
                · rcases List.mem_cons.mp hsm with heq2 | hm2
                  · left
                    injection heq2 with hqx hqy
                    subst hqx
                    subst hqy
                    exact Finset.mem_insert_self _ _
                  · exact Or.inr (mem_pushNeighbors_of_mem x y _ rest hm2)
            · rcases hseedin with hin | hsm
              · exact Or.inl (Finset.mem_insert_of_mem hin)
              · rcases List.mem_cons.mp hsm with heq | hm
                · left
                  injection heq with hqx hqy
                  subst hqx
                  subst hqy
                  exact Finset.mem_insert_self _ _
                · exact Or.inr (mem_pushNeighbors_of_mem x y _ rest hm)
            · simp only [pushNeighbors, List.length_cons]
              simp only [List.length_cons] at hfuel
              omega

/-- C1: on a level whose region map has a connected 5 by 5 block of uniform
non-background region id R surrounded by background pixels, with selected
colour index R, floodFill from any seed inside the block writes the palette
colour of R (with opaque alpha) to exactly the 25 block pixels of the paint
buffer and adds exactly those 25 pixel keys to the painted set. -/
theorem c1_floodFill_fills_block (c : Canvas) (R : Nat) (blockX blockY sx sy : Int)
    (st : PaintState) (entry : Rgb)
    (h1 : 1 ≤ blockX) (h2 : blockX + 6 ≤ (c.imgWidth : Int))
    (h3 : 1 ≤ blockY) (h4 : blockY + 6 ≤ (c.imgHeight : Int))
    (hR255 : R ≠ 255) (hR254 : R ≠ 254)
    (hentry : hexParse (paletteGet c R) = some entry)
    (hblock : ∀ i : Nat, i < 5 → ∀ j : Nat, j < 5 →
      regionAt c ((blockY + (j : Int)) * c.imgWidth + (blockX + (i : Int))).toNat = R)
    (hring : ∀ i : Nat, i < 7 → ∀ j : Nat, j < 7 → (i = 0 ∨ i = 6 ∨ j = 0 ∨ j = 6) →
      regionAt c ((blockY - 1 + (j : Int)) * c.imgWidth + (blockX - 1 + (i : Int))).toNat = 255 ∨
      regionAt c ((blockY - 1 + (j : Int)) * c.imgWidth + (blockX - 1 + (i : Int))).toNat = 254)
    (hseed : inBlock blockX blockY sx sy)
    (hbuf : st.buffer.length = c.imgWidth * c.imgHeight)
    (hdisj : ∀ k ∈ blockKeys c blockX blockY, k ∉ st.painted) :
    (blockKeys c blockX blockY).card = 25 ∧
    (floodFill c R sx sy st).painted = st.painted ∪ blockKeys c blockX blockY ∧
    (floodFill c R sx sy st).painted.card = st.painted.card + 25 ∧
    (∀ k ∈ blockKeys c blockX blockY,
      (floodFill c R sx sy st).buffer[k]? = some ⟨entry.r, entry.g, entry.b, 255⟩) ∧
    ∀ k ∉ blockKeys c blockX blockY,
      (floodFill c R sx sy st).buffer[k]? = st.buffer[k]? := by
  have hblockR := regionAt_of_inBlock c blockX blockY R hblock
  have hringBg := regionAt_of_inRing c blockX blockY hring
  obtain ⟨hsx0, hsx1, hsy0, hsy1⟩ := inBlock_inBounds blockX blockY sx sy
    c.imgWidth c.imgHeight h1 h2 h3 h4 hseed
  have hW7 : 7 ≤ c.imgWidth := by
    have : (7 : Int) ≤ (c.imgWidth : Int) := by omega
    exact_mod_cast this
  have hH7 : 7 ≤ c.imgHeight := by
    have : (7 : Int) ≤ (c.imgHeight : Int) := by omega
    exact_mod_cast this
  have hWH : 49 ≤ c.imgWidth * c.imgHeight := Nat.mul_le_mul hW7 hH7
  have htar : regionAt c (sy * (c.imgWidth : Int) + sx).toNat = R := hblockR sx sy hseed
  have hfc : hexToRgb (paletteGet c R) = entry := by
    rw [hexToRgb, hentry]
    rfl
  obtain ⟨hv, hp, hb⟩ := c1_loop_invariant c R blockX blockY sx sy st entry
    h1 h2 h3 h4 hR255 hR254 hblockR hringBg hseed
    (1 + 9 * (c.imgWidth * c.imgHeight)) [(sx, sy)] ∅ 0 st
    (by
      intro p hp
      rcases List.mem_singleton.mp hp with rfl
      exact Or.inl hseed)
    (Finset.empty_subset _)
    Finset.card_empty.symm
    (by simp)
    hbuf
    (fun k => ⟨fun h => absurd h (Finset.not_mem_empty _), fun _ => rfl⟩)
    (by
      rintro qx qy hq ⟨px, py, hpb, habs, hadj⟩
      exact (Finset.not_mem_empty _ habs).elim)
    (Or.inr (List.mem_cons_self _ _))
    (by
      simp only [List.length_cons, List.length_nil]
      omega)
  have hrun : floodFill c R sx sy st =
      (floodFillLoop c R entry (c.imgWidth * c.imgHeight)
        (1 + 9 * (c.imgWidth * c.imgHeight)) [(sx, sy)] ∅ 0 st).state := by
    simp only [floodFill, floodFillRun, floodFillRunFuel]
    rw [if_neg (by omega), htar, if_neg (by rintro (h | h); exacts [hR255 h, hR254 h]),
      if_neg (fun h => h rfl), hfc]
  have hdisjf : Disjoint st.painted (blockKeys c blockX blockY) :=
    Finset.disjoint_right.mpr hdisj
  refine ⟨blockKeys_card c blockX blockY h1 h2 h3 h4, ?_, ?_, ?_, ?_⟩
  · rw [hrun]
    exact hp
  · rw [hrun, hp, Finset.card_union_of_disjoint hdisjf,
      blockKeys_card c blockX blockY h1 h2 h3 h4]
  · intro k hk
    rw [hrun]
    exact (hb k).1 hk
  · intro k hk
    rw [hrun]
    exact (hb k).2 hk

/-- C1 witness: on the concrete 7 by 7 fixture with its 5 by 5 block of
region id 0 at (1, 1) and selected colour 0, flood fill from the seed
(3, 3) paints exactly the 25 block pixels red and adds exactly their 25
keys to the painted set. -/
theorem c1_witness :
    (blockKeys wCanvas 1 1).card = 25 ∧
    (floodFill wCanvas 0 3 3 wState).painted = wState.painted ∪ blockKeys wCanvas 1 1 ∧
    (floodFill wCanvas 0 3 3 wState).painted.card = wState.painted.card + 25 ∧
    (∀ k ∈ blockKeys wCanvas 1 1,
      (floodFill wCanvas 0 3 3 wState).buffer[k]? = some ⟨255, 0, 0, 255⟩) ∧
    ∀ k ∉ blockKeys wCanvas 1 1,
      (floodFill wCanvas 0 3 3 wState).buffer[k]? = wState.buffer[k]? :=
  c1_floodFill_fills_block wCanvas 0 1 1 3 3 wState ⟨255, 0, 0⟩
    (by decide) (by decide) (by decide) (by decide) (by decide) (by decide)
    (by decide) (by decide) (by decide) (by decide) (by decide) (by decide)
